import Mathlib

/-!
Verification of the text-input loader of `aoclib` (`src/aoclib/src/lib/parser.rs`).

The loader is four functions over the file system:
  * `parse_lines`      — read a file, split into lines, parse each line via `FromStr`;
  * `parse_lines_with` — read a file, split into lines, parse each line via a caller closure;
  * `parse_with`       — read a file, hand the whole content to a caller closure;
  * `read_input`       — read a file, return the raw content.

We embed them shallowly.  A file's decoded UTF-8 content is a `List Char`.
The file system (`fs::read_to_string`) is an abstract parameter
`fs : String → Except ε (List Char)`: for each path it either yields the decoded
content or the I/O / encoding error, already converted (`?` plus `Into`) into the
uniform error type `ε` (Rust's `Box<dyn Error>`).  Caller-supplied converters are
functions `List Char → Except ε α`.  All definitions are total structural
recursions, mirroring the Rust code, which contains no loops other than the
line iterator.
-/

namespace Aoc

/-- Strip one trailing carriage return, as Rust's `lines()` does to a chunk that
was terminated by a line feed.  (`str::lines`: "Line terminators ... either
newlines (`\n`) or sequences of a carriage return followed by a line feed
(`\r\n`)".) -/
def stripCR (l : List Char) : List Char :=
  if l.getLast? = some '\r' then l.dropLast else l

/-- Worker for `rustLines`: `acc` holds the characters of the current line in
reverse.  A line feed emits the current line with a trailing carriage return
stripped; at the end of input the final chunk is emitted unstripped, and only
if it is nonempty (a final line terminator is optional and produces no empty
final line). -/
def linesGo (acc : List Char) : List Char → List (List Char)
  | [] => if acc = [] then [] else [acc.reverse]
  | c :: rest =>
    if c = '\n' then stripCR acc.reverse :: linesGo [] rest
    else linesGo (c :: acc) rest

/-- The semantics of Rust's `str::lines()`, used by `parse_lines` and
`parse_lines_with` to split the file content. -/
def rustLines (s : List Char) : List (List Char) :=
  linesGo [] s

/-- Fail-fast collection of per-line results, the semantics of Rust's
`.map(parser).collect::<Result<Vec<T>, _>>()`: stop at the first error,
otherwise return all values in order. -/
def collectResults (f : List Char → Except ε α) : List (List Char) → Except ε (List α)
  | [] => Except.ok []
  | l :: ls =>
    match f l with
    | Except.error e => Except.error e
    | Except.ok a =>
      match collectResults f ls with
      | Except.error e => Except.error e
      | Except.ok as' => Except.ok (a :: as')

/-- Rust's `Result::map_err` followed by `Into::into`: convert the error of a
`FromStr` parse into the uniform error type. -/
def map_err (r : Except ε' α) (f : ε' → ε) : Except ε α :=
  match r with
  | Except.ok a => Except.ok a
  | Except.error e => Except.error (f e)

/-- `parse_lines<T, P>(path)`: read the file, split into lines, parse every
line with `T`'s `FromStr` implementation (here the explicit `fromStr`),
converting each parse error into the uniform error type with `intoE`
(Rust's `.map_err(|e| e.into())`). -/
def parse_lines (fs : String → Except ε (List Char)) (path : String)
    (fromStr : List Char → Except ε' α) (intoE : ε' → ε) : Except ε (List α) :=
  match fs path with
  | Except.error e => Except.error e
  | Except.ok content =>
    collectResults (fun line => map_err (fromStr line) intoE) (rustLines content)

/-- `parse_lines_with<T, P, F>(path, parser)`: read the file, split into lines,
parse every line with the caller-supplied closure. -/
def parse_lines_with (fs : String → Except ε (List Char)) (path : String)
    (parser : List Char → Except ε α) : Except ε (List α) :=
  match fs path with
  | Except.error e => Except.error e
  | Except.ok content => collectResults parser (rustLines content)

/-- `parse_with<T, P, F>(path, parser)`: read the file and hand the entire
content to the caller-supplied closure. -/
def parse_with (fs : String → Except ε (List Char)) (path : String)
    (parser : List Char → Except ε α) : Except ε α :=
  match fs path with
  | Except.error e => Except.error e
  | Except.ok content => parser content

/-- `read_input<P>(path)`: read the file and return its raw content. -/
def read_input (fs : String → Except ε (List Char)) (path : String) :
    Except ε (List Char) :=
  fs path

/-- Splitting at every line terminator while keeping the segment after the
final terminator even when it is empty.  `rustLines` is this split with a
trailing empty segment removed (see `lines_drop_trailing_empty`). -/
def segGo (acc : List Char) : List Char → List (List Char)
  | [] => [acc.reverse]
  | c :: rest =>
    if c = '\n' then stripCR acc.reverse :: segGo [] rest
    else segGo (c :: acc) rest

/-- All segments of the content between line terminators, including a final
empty segment when the content ends in a terminator. -/
def lineSegments (s : List Char) : List (List Char) :=
  segGo [] s

/-- Drop the last segment when it is empty. -/
def dropLastIfEmpty (ls : List (List Char)) : List (List Char) :=
  if ls.getLast? = some [] then ls.dropLast else ls

/-- Rust's `str::split("\n\n")` specialised to the two-character separator used
by the section-splitting parser of `tests::test_parse_with_sections`:
non-overlapping occurrences are found left to right. -/
def splitNlNlGo (acc : List Char) : List Char → List (List Char)
  | [] => [acc.reverse]
  | '\n' :: '\n' :: rest => acc.reverse :: splitNlNlGo [] rest
  | c :: rest => splitNlNlGo (c :: acc) rest

/-- `content.split("\n\n")`, as in the sections test parser. -/
def splitNlNl (s : List Char) : List (List Char) :=
  splitNlNlGo [] s

/-- Sample always-succeeding converter, used to instantiate the theorems on
concrete inputs. -/
def lenConv (l : List Char) : Except String Nat :=
  Except.ok l.length

/-- Sample converter failing exactly on the line "x". -/
def xFails (l : List Char) : Except String (List Char) :=
  if l = ['x'] then Except.error "bad line" else Except.ok l

/-- Sample file system returning a fixed content for every path. -/
def constFS (content : List Char) : String → Except String (List Char) :=
  fun _ => Except.ok content

/-- Sample file system failing for every path (missing file). -/
def failFS (msg : String) : String → Except String (List Char) :=
  fun _ => Except.error msg

/-! ### Helper lemmas -/

lemma stripCR_concat_cr (l : List Char) : stripCR (l ++ ['\r']) = l := by
  simp [stripCR]

lemma stripCR_eq_self (l : List Char) (h : l.getLast? ≠ some '\r') :
    stripCR l = l := by
  simp [stripCR, h]

lemma map_err_isOk {ε ε' α : Type} (r : Except ε' α) (f : ε' → ε) :
    (map_err r f).isOk = r.isOk := by
  cases r <;> rfl

lemma map_err_toOption {ε ε' α : Type} (r : Except ε' α) (f : ε' → ε) :
    (map_err r f).toOption = r.toOption := by
  cases r <;> rfl

lemma linesGo_append_nl (l : List Char) (hl : '\n' ∉ l) (acc t : List Char) :
    linesGo acc (l ++ '\n' :: t) = stripCR (acc.reverse ++ l) :: linesGo [] t := by
  induction l generalizing acc with
  | nil => simp [linesGo]
  | cons c l ih =>
    have hc : c ≠ '\n' := fun h => hl (h ▸ List.mem_cons_self c l)
    have hl' : '\n' ∉ l := fun h => hl (List.mem_cons_of_mem c h)
    show linesGo acc (c :: (l ++ '\n' :: t)) = stripCR (acc.reverse ++ c :: l) :: linesGo [] t
    rw [linesGo, if_neg hc, ih hl' (c :: acc)]
    simp

lemma segGo_ne_nil (s acc : List Char) : segGo acc s ≠ [] := by
  induction s generalizing acc with
  | nil => simp [segGo]
  | cons c rest ih =>
    by_cases hc : c = '\n'
    · simp [segGo, hc]
    · simpa [segGo, hc] using ih (c :: acc)

lemma dropLastIfEmpty_cons (x : List Char) (ys : List (List Char)) (h : ys ≠ []) :
    dropLastIfEmpty (x :: ys) = x :: dropLastIfEmpty ys := by
  obtain ⟨y, ys', rfl⟩ := List.exists_cons_of_ne_nil h
  by_cases h2 : (y :: ys').getLast? = some ([] : List Char)
  · simp [dropLastIfEmpty, List.getLast?_cons_cons, h2]
  · simp [dropLastIfEmpty, List.getLast?_cons_cons, h2]

lemma linesGo_eq_segGo (s acc : List Char) :
    linesGo acc s = dropLastIfEmpty (segGo acc s) := by
  induction s generalizing acc with
  | nil =>
    by_cases h : acc = [] <;>
      simp [linesGo, segGo, dropLastIfEmpty, h]
  | cons c rest ih =>
    by_cases hc : c = '\n'
    · simp only [linesGo, segGo, if_pos hc]
      rw [ih [], dropLastIfEmpty_cons _ _ (segGo_ne_nil rest [])]
    · simp only [linesGo, segGo, if_neg hc]
      exact ih (c :: acc)

lemma collectResults_ok {ε α : Type} (f : List Char → Except ε α)
    (ls : List (List Char)) (h : ∀ l ∈ ls, (f l).isOk) :
    ∃ vs : List α, collectResults f ls = Except.ok vs ∧
      vs.length = ls.length ∧
      ∀ i : Nat, vs[i]? = (ls[i]?).bind fun l => (f l).toOption := by
  induction ls with
  | nil => exact ⟨[], rfl, rfl, fun i => by simp⟩
  | cons l ls ih =>
    have hl := h l (List.mem_cons_self l ls)
    cases hfl : f l with
    | error e => rw [hfl] at hl; simp [Except.isOk, Except.toBool] at hl
    | ok a =>
      obtain ⟨vs, hvs, hlen, hidx⟩ := ih fun l' hl' => h l' (List.mem_cons_of_mem l hl')
      refine ⟨a :: vs, ?_, by simp [hlen], ?_⟩
      · simp [collectResults, hfl, hvs]
      · intro i
        cases i with
        | zero => simp [hfl, Except.toOption]
        | succ j => simpa using hidx j

lemma collectResults_error {ε α : Type} (f : List Char → Except ε α)
    (ls : List (List Char)) (i : Nat) (li : List Char) (e : ε)
    (hli : ls[i]? = some li) (herr : f li = Except.error e)
    (hpre : ∀ j < i, ∀ l, ls[j]? = some l → (f l).isOk) :
    collectResults f ls = Except.error e := by
  induction ls generalizing i with
  | nil => simp at hli
  | cons l ls ih =>
    cases i with
    | zero =>
      simp only [List.getElem?_cons_zero, Option.some_inj] at hli
      subst hli
      simp [collectResults, herr]
    | succ j =>
      have h0 : (f l).isOk := hpre 0 (Nat.succ_pos j) l (by simp)
      cases hfl : f l with
      | error e' => rw [hfl] at h0; simp [Except.isOk, Except.toBool] at h0
      | ok a =>
        have hrec := ih j (by simpa using hli)
          (fun k hk l' hl' => hpre (k + 1) (by omega) l' (by simpa using hl'))
        simp [collectResults, hfl, hrec]

/-! ### Claim theorems -/

/-- C1: for a readable file whose content splits into N lines and a converter
that succeeds on every one of those lines, `parse_lines` and
`parse_lines_with` return a successful sequence of exactly N elements whose
i-th element is the converter's result on the i-th line, in the original
order. -/
theorem parse_lines_success_length_order {ε ε' α : Type}
    (fs : String → Except ε (List Char)) (path : String)
    (fromStr : List Char → Except ε' α) (intoE : ε' → ε) (content : List Char)
    (hfs : fs path = Except.ok content)
    (hok : ∀ l ∈ rustLines content, (fromStr l).isOk) :
    ∃ vs : List α,
      parse_lines fs path fromStr intoE = Except.ok vs ∧
      parse_lines_with fs path (fun line => map_err (fromStr line) intoE)
        = Except.ok vs ∧
      vs.length = (rustLines content).length ∧
      ∀ i : Nat, vs[i]? = ((rustLines content)[i]?).bind fun l => (fromStr l).toOption := by
  have hok' : ∀ l ∈ rustLines content,
      ((fun line => map_err (fromStr line) intoE) l).isOk := by
    intro l hl
    rw [map_err_isOk]
    exact hok l hl
  obtain ⟨vs, hvs, hlen, hidx⟩ := collectResults_ok _ _ hok'
  refine ⟨vs, ?_, ?_, hlen, ?_⟩
  · simp only [parse_lines, hfs]
    exact hvs
  · simp only [parse_lines_with, hfs]
    exact hvs
  · intro i
    rw [hidx i]
    simp [map_err_toOption]

/-- Witness for C1: content "10\n200\n3" with an always-succeeding
length-counting converter. -/
theorem parse_lines_success_length_order_witness :
    ∃ vs : List Nat,
      parse_lines (constFS "10\n200\n3".data) "input.txt" lenConv id
        = Except.ok vs ∧
      parse_lines_with (constFS "10\n200\n3".data) "input.txt"
          (fun line => map_err (lenConv line) id) = Except.ok vs ∧
      vs.length = (rustLines "10\n200\n3".data).length ∧
      ∀ i : Nat, vs[i]? = ((rustLines "10\n200\n3".data)[i]?).bind
        fun l => (lenConv l).toOption :=
  parse_lines_success_length_order (constFS "10\n200\n3".data) "input.txt"
    lenConv id "10\n200\n3".data rfl (fun _ _ => rfl)

/-- C2: when a line fails to convert and every earlier line succeeds,
`parse_lines_with` returns exactly the converter's error for that earliest
failing line, `parse_lines` returns that error pushed through `Into`, never a
partial sequence; and the result does not depend on the converter's behaviour
on any line after the first failing one. -/
theorem parse_lines_fail_fast {ε ε' α β : Type}
    (fs : String → Except ε (List Char)) (path : String) (content : List Char)
    (i : Nat) (li : List Char)
    (f : List Char → Except ε β) (e : ε)
    (fromStr : List Char → Except ε' α) (intoE : ε' → ε) (e' : ε')
    (hfs : fs path = Except.ok content)
    (hli : (rustLines content)[i]? = some li)
    (hfe : f li = Except.error e)
    (hfpre : ∀ j < i, ∀ l, (rustLines content)[j]? = some l → (f l).isOk)
    (hse : fromStr li = Except.error e')
    (hspre : ∀ j < i, ∀ l, (rustLines content)[j]? = some l → (fromStr l).isOk) :
    parse_lines_with fs path f = Except.error e ∧
    parse_lines fs path fromStr intoE = Except.error (intoE e') ∧
    ∀ g : List Char → Except ε β,
      (∀ j ≤ i, ∀ l, (rustLines content)[j]? = some l → g l = f l) →
      parse_lines_with fs path g = Except.error e := by
  refine ⟨?_, ?_, ?_⟩
  · have h := collectResults_error f _ i li e hli hfe hfpre
    simp only [parse_lines_with, hfs]
    exact h
  · have h : collectResults (fun line => map_err (fromStr line) intoE)
        (rustLines content) = Except.error (intoE e') :=
      collectResults_error _ _ i li (intoE e') hli (by simp [map_err, hse])
        fun j hj l hl => by rw [map_err_isOk]; exact hspre j hj l hl
    simp only [parse_lines, hfs]
    exact h
  · intro g hg
    have hge : g li = Except.error e := by rw [hg i le_rfl li hli, hfe]
    have hgpre : ∀ j < i, ∀ l, (rustLines content)[j]? = some l → (g l).isOk := by
      intro j hj l hl
      rw [hg j (le_of_lt hj) l hl]
      exact hfpre j hj l hl
    have h := collectResults_error g _ i li e hli hge hgpre
    simp only [parse_lines_with, hfs]
    exact h

/-- Witness for C2: content "x\n2" whose first line fails under `xFails`. -/
theorem parse_lines_fail_fast_witness :
    parse_lines_with (constFS "x\n2".data) "input.txt" xFails
      = Except.error "bad line" ∧
    parse_lines (constFS "x\n2".data) "input.txt" xFails id
      = Except.error "bad line" ∧
    ∀ g : List Char → Except String (List Char),
      (∀ j ≤ 0, ∀ l, (rustLines "x\n2".data)[j]? = some l → g l = xFails l) →
      parse_lines_with (constFS "x\n2".data) "input.txt" g
        = Except.error "bad line" :=
  parse_lines_fail_fast (constFS "x\n2".data) "input.txt" "x\n2".data 0 ['x']
    xFails "bad line" xFails id "bad line" rfl rfl rfl
    (fun j hj => absurd hj (Nat.not_lt_zero j)) rfl
    (fun j hj => absurd hj (Nat.not_lt_zero j))

/-- C3: reading the file with `read_input` and, on success, applying the
parser to the content is the same operation (same value, same error) as
`parse_with` on that path with that parser. -/
theorem read_then_parse_eq_parse_with {ε α : Type}
    (fs : String → Except ε (List Char)) (path : String)
    (parser : List Char → Except ε α) :
    (read_input fs path).bind parser = parse_with fs path parser := by
  unfold read_input parse_with
  cases fs path <;> rfl

/-- C4: `parse_lines` is exactly `parse_lines_with` called with the converter
that applies the `FromStr` conversion and converts its error with `Into` —
the two functions agree on every path, file system, and conversion. -/
theorem parse_lines_eq_parse_lines_with {ε ε' α : Type}
    (fs : String → Except ε (List Char)) (path : String)
    (fromStr : List Char → Except ε' α) (intoE : ε' → ε) :
    parse_lines fs path fromStr intoE
      = parse_lines_with fs path (fun line => map_err (fromStr line) intoE) :=
  rfl

/-- C5: `parse_lines` and `parse_lines_with` split the content at the
recognised line terminators (LF and CRLF, covering the platform line-break
conventions), and the empty segment after a final terminator is not part of
the file's content: the split they use is the full terminator split with a
trailing empty segment dropped. -/
theorem lines_split_drops_trailing_empty {ε ε' α β : Type}
    (content : List Char) (path : String)
    (f : List Char → Except ε α)
    (fromStr : List Char → Except ε' β) (intoE : ε' → ε) :
    rustLines content = dropLastIfEmpty (lineSegments content) ∧
    parse_lines_with (fun _ => Except.ok content) path f
      = collectResults f (dropLastIfEmpty (lineSegments content)) ∧
    parse_lines (fun _ => Except.ok content) path fromStr intoE
      = collectResults (fun line => map_err (fromStr line) intoE)
          (dropLastIfEmpty (lineSegments content)) := by
  have h : rustLines content = dropLastIfEmpty (lineSegments content) :=
    linesGo_eq_segGo content []
  refine ⟨h, ?_, ?_⟩
  · show collectResults f (rustLines content) = _
    rw [h]
  · show collectResults _ (rustLines content) = _
    rw [h]

/-- C6: for a file whose content is empty, `parse_lines` succeeds with the
empty sequence whatever the converter is (so the converter is never consulted),
and `read_input` returns the empty string. -/
theorem empty_file_parse {ε : Type}
    (fs : String → Except ε (List Char)) (path : String)
    (hfs : fs path = Except.ok []) :
    (∀ (α ε' : Type) (fromStr : List Char → Except ε' α) (intoE : ε' → ε),
      parse_lines fs path fromStr intoE = Except.ok []) ∧
    read_input fs path = Except.ok [] := by
  constructor
  · intro α ε' fromStr intoE
    simp [parse_lines, hfs, rustLines, linesGo, collectResults]
  · simpa [read_input] using hfs

/-- Witness for C6: a file system whose every file is empty. -/
theorem empty_file_parse_witness :
    (∀ (α ε' : Type) (fromStr : List Char → Except ε' α) (intoE : ε' → String),
      parse_lines (constFS []) "input.txt" fromStr intoE = Except.ok []) ∧
    read_input (constFS []) "input.txt" = Except.ok [] :=
  empty_file_parse (constFS []) "input.txt" rfl

/-- C7: every I/O failure is returned as an error value by all four
operations (which, being total Lean functions defined by structural recursion,
can neither panic nor diverge), and every outcome of the line-parsing
operations is a value of the result type — either a success or an error. -/
theorem io_failure_as_error_value {ε ε' α β γ : Type}
    (fs : String → Except ε (List Char)) (path : String) (e : ε)
    (fromStr : List Char → Except ε' α) (intoE : ε' → ε)
    (f : List Char → Except ε β) (g : List Char → Except ε γ)
    (hfs : fs path = Except.error e) :
    parse_lines fs path fromStr intoE = Except.error e ∧
    parse_lines_with fs path f = Except.error e ∧
    parse_with fs path g = Except.error e ∧
    read_input fs path = Except.error e ∧
    ∀ (fs₂ : String → Except ε (List Char)) (f₂ : List Char → Except ε β),
      (∃ vs, parse_lines_with fs₂ path f₂ = Except.ok vs) ∨
      ∃ e₂, parse_lines_with fs₂ path f₂ = Except.error e₂ := by
  refine ⟨?_, ?_, ?_, ?_, ?_⟩
  · simp [parse_lines, hfs]
  · simp [parse_lines_with, hfs]
  · simp [parse_with, hfs]
  · simpa [read_input] using hfs
  · intro fs₂ f₂
    cases h : parse_lines_with fs₂ path f₂ with
    | ok vs => exact Or.inl ⟨vs, rfl⟩
    | error e₂ => exact Or.inr ⟨e₂, rfl⟩

/-- Witness for C7: a missing file. -/
theorem io_failure_as_error_value_witness :
    parse_lines (failFS "no such file") "input.txt" xFails id
      = Except.error "no such file" ∧
    parse_lines_with (failFS "no such file") "input.txt" xFails
      = Except.error "no such file" ∧
    parse_with (failFS "no such file") "input.txt" xFails
      = Except.error "no such file" ∧
    read_input (failFS "no such file") "input.txt"
      = Except.error "no such file" ∧
    ∀ (fs₂ : String → Except String (List Char))
      (f₂ : List Char → Except String (List Char)),
      (∃ vs, parse_lines_with fs₂ "input.txt" f₂ = Except.ok vs) ∨
      ∃ e₂, parse_lines_with fs₂ "input.txt" f₂ = Except.error e₂ :=
  io_failure_as_error_value (failFS "no such file") "input.txt" "no such file"
    xFails id xFails xFails rfl

/-- C8: on the content "section1\nline1\nline2\n\nsection2\nline3",
`parse_with` with the parser that splits on the blank-line separator returns
exactly the two sections "section1\nline1\nline2" and "section2\nline3". -/
theorem parse_with_sections_concrete :
    parse_with (constFS "section1\nline1\nline2\n\nsection2\nline3".data)
        "input.txt"
        (fun content =>
          (Except.ok (splitNlNl content) : Except String (List (List Char))))
      = Except.ok ["section1\nline1\nline2".data, "section2\nline3".data] := by
  rfl

/-- C9: a line feed ends a line, a carriage return immediately followed by a
line feed ends a line with the carriage return stripped, and a carriage
return not followed by a line feed neither ends the line nor is removed from
its text. -/
theorem line_terminator_lf_crlf (l t : List Char) (hl : '\n' ∉ l)
    (hcr : l.getLast? ≠ some '\r') :
    rustLines (l ++ '\r' :: '\n' :: t) = l :: rustLines t ∧
    rustLines (l ++ '\n' :: t) = l :: rustLines t ∧
    ∀ l₂ : List Char, '\n' ∉ l₂ → l₂ ≠ [] → l₂.getLast? ≠ some '\r' →
      rustLines (l ++ '\r' :: l₂ ++ '\n' :: t) = (l ++ '\r' :: l₂) :: rustLines t := by
  refine ⟨?_, ?_, ?_⟩
  · have h1 : '\n' ∉ l ++ ['\r'] := by simp [hl]
    have h2 := linesGo_append_nl (l ++ ['\r']) h1 [] t
    rw [show l ++ '\r' :: '\n' :: t = (l ++ ['\r']) ++ '\n' :: t by simp]
    unfold rustLines
    rw [h2]
    simp [stripCR_concat_cr]
  · have h2 := linesGo_append_nl l hl [] t
    unfold rustLines
    rw [h2]
    simp [stripCR_eq_self l hcr]
  · intro l₂ hn2 hne hcr₂
    have hmem : '\n' ∉ l ++ '\r' :: l₂ := by simp [hl, hn2]
    have h2 := linesGo_append_nl (l ++ '\r' :: l₂) hmem [] t
    rw [show l ++ '\r' :: l₂ ++ '\n' :: t = (l ++ '\r' :: l₂) ++ '\n' :: t by simp]
    unfold rustLines
    rw [h2]
    have hlast : (l ++ '\r' :: l₂).getLast? = l₂.getLast? := by
      rw [show l ++ '\r' :: l₂ = (l ++ ['\r']) ++ l₂ by simp]
      exact List.getLast?_append_of_ne_nil (l ++ ['\r']) hne
    rw [stripCR_eq_self _ (hlast ▸ hcr₂)]
    simp

/-- Witness for C9 at the line "a" and remainder "b". -/
theorem line_terminator_lf_crlf_witness :
    rustLines (['a'] ++ '\r' :: '\n' :: ['b']) = ['a'] :: rustLines ['b'] ∧
    rustLines (['a'] ++ '\n' :: ['b']) = ['a'] :: rustLines ['b'] ∧
    ∀ l₂ : List Char, '\n' ∉ l₂ → l₂ ≠ [] → l₂.getLast? ≠ some '\r' →
      rustLines (['a'] ++ '\r' :: l₂ ++ '\n' :: ['b'])
        = (['a'] ++ '\r' :: l₂) :: rustLines ['b'] :=
  line_terminator_lf_crlf ['a'] ['b'] (by decide) (by decide)

/-- C10: only the empty segment after the final terminator is dropped: a file
containing a single line feed yields exactly one line — the empty string,
which is handed to the converter — and the content "a\n\n" yields the two
lines "a" and "", the interior empty line being kept and converted, while
"a\n" yields just "a". -/
theorem trailing_empty_only_dropped {ε ε' α β : Type} (path : String)
    (f : List Char → Except ε α)
    (fromStr : List Char → Except ε' β) (intoE : ε' → ε) :
    parse_lines_with (fun _ => Except.ok ['\n']) path f
      = Except.map (fun a => [a]) (f []) ∧
    parse_lines (fun _ => Except.ok ['\n']) path fromStr intoE
      = Except.map (fun a => [a]) (map_err (fromStr []) intoE) ∧
    parse_lines_with (fun _ => Except.ok ('a' :: '\n' :: '\n' :: [])) path f
      = (f ['a']).bind (fun a => Except.map (fun b => [a, b]) (f [])) ∧
    rustLines ['\n'] = [[]] ∧
    rustLines ('a' :: '\n' :: '\n' :: []) = [['a'], []] ∧
    rustLines ('a' :: '\n' :: []) = [['a']] := by
  refine ⟨?_, ?_, ?_, rfl, rfl, rfl⟩
  · show collectResults f (rustLines ['\n']) = _
    rw [show rustLines ['\n'] = [[]] from rfl]
    cases h : f [] <;> simp [collectResults, h, Except.map]
  · show collectResults (fun line => map_err (fromStr line) intoE)
        (rustLines ['\n']) = _
    rw [show rustLines ['\n'] = [[]] from rfl]
    cases h : fromStr [] <;> simp [collectResults, map_err, h, Except.map]
  · show collectResults f (rustLines ('a' :: '\n' :: '\n' :: [])) = _
    rw [show rustLines ('a' :: '\n' :: '\n' :: []) = [['a'], []] from rfl]
    cases ha : f ['a'] <;> cases hb : f [] <;>
      simp [collectResults, ha, hb, Except.map, Except.bind]

end Aoc
